import Mathlib

/-!
Verification of the two scripts of `album_m3u_cover_to_promo-video`
(`mix_mp3.py` and `mix_mp3a.py`).

The scripts only assemble strings (an ffmpeg filter graph and argument
lists) and orchestrate two subprocess calls.  We shallowly embed that
string assembly here.  Python strings are modelled as `List Char`
(abbreviated `Str`); Python's `str(i)` for a natural number is modelled by
`(Nat.repr i).data`; f-string interpolation becomes list append.  The
external tools (ffmpeg / ffprobe) are opaque: subprocess outcomes and the
probed track durations enter the model as oracle parameters.
-/

/-- Python strings, modelled as their character lists. -/
abbrev Str := List Char

/-- The characters of the decimal rendering `str(n)` of a natural number. -/
def digitsOf (n : Nat) : Str := (Nat.repr n).data

theorem digitsOf_eq_toDigits (n : Nat) : digitsOf n = Nat.toDigits 10 n := rfl

/-- The helper `Nat.toDigitsCore` only ever prepends to its accumulator. -/
theorem toDigitsCore_append : ∀ (fuel n : Nat) (acc : List Char),
    Nat.toDigitsCore 10 fuel n acc = Nat.toDigitsCore 10 fuel n [] ++ acc := by
  intro fuel
  induction fuel with
  | zero => intro n acc; simp [Nat.toDigitsCore]
  | succ f ih =>
    intro n acc
    simp only [Nat.toDigitsCore]
    by_cases h : n / 10 = 0
    · simp [h]
    · simp only [if_neg h]
      rw [ih (n / 10) (Nat.digitChar (n % 10) :: acc),
          ih (n / 10) [Nat.digitChar (n % 10)]]
      simp

theorem digitChar_isDigit (m : Nat) (hm : m < 10) : (Nat.digitChar m).isDigit = true := by
  interval_cases m <;> decide

theorem digitChar_toNat (m : Nat) (hm : m < 10) : (Nat.digitChar m).toNat = 48 + m := by
  interval_cases m <;> decide

theorem toDigitsCore_isDigit : ∀ (fuel n : Nat) (acc : List Char),
    (∀ c ∈ acc, c.isDigit = true) → ∀ c ∈ Nat.toDigitsCore 10 fuel n acc, c.isDigit = true := by
  intro fuel
  induction fuel with
  | zero => intro n acc hacc; simpa [Nat.toDigitsCore] using hacc
  | succ f ih =>
    intro n acc hacc
    simp only [Nat.toDigitsCore]
    have hd : (Nat.digitChar (n % 10)).isDigit = true :=
      digitChar_isDigit _ (Nat.mod_lt _ (by omega))
    by_cases h : n / 10 = 0
    · simp only [if_pos h]
      intro c hc
      rcases List.mem_cons.mp hc with hc | hc
      · subst hc; exact hd
      · exact hacc c hc
    · simp only [if_neg h]
      refine ih (n / 10) _ ?_
      intro c hc
      rcases List.mem_cons.mp hc with hc | hc
      · subst hc; exact hd
      · exact hacc c hc

theorem digitsOf_isDigit (n : Nat) : ∀ c ∈ digitsOf n, c.isDigit = true := by
  rw [digitsOf_eq_toDigits]
  exact toDigitsCore_isDigit (n + 1) n [] (by simp)

theorem digitsOf_ne_nil (n : Nat) : digitsOf n ≠ [] := by
  rw [digitsOf_eq_toDigits]
  show Nat.toDigitsCore 10 (n + 1) n [] ≠ []
  simp only [Nat.toDigitsCore]
  by_cases h : n / 10 = 0
  · simp [h]
  · simp only [if_neg h]
    rw [toDigitsCore_append]
    simp

/-- Read a list of decimal digit characters back as a number. -/
def parseNum (l : Str) : Nat := l.foldl (fun a c => 10 * a + (c.toNat - 48)) 0

theorem parseNum_append_singleton (l : Str) (c : Char) :
    parseNum (l ++ [c]) = 10 * parseNum l + (c.toNat - 48) := by
  simp [parseNum, List.foldl_append]

theorem parseNum_toDigitsCore : ∀ (n : Nat), ∀ (fuel : Nat), n < fuel →
    parseNum (Nat.toDigitsCore 10 fuel n []) = n := by
  intro n
  induction n using Nat.strong_induction_on with
  | _ n ih =>
    intro fuel hfuel
    match fuel with
    | 0 => omega
    | f + 1 =>
      simp only [Nat.toDigitsCore]
      by_cases h : n / 10 = 0
      · have hn : n < 10 := by omega
        simp only [if_pos h]
        have : parseNum [Nat.digitChar (n % 10)] = (Nat.digitChar (n % 10)).toNat - 48 := by
          simp [parseNum]
        rw [this, digitChar_toNat (n % 10) (Nat.mod_lt _ (by omega))]
        omega
      · simp only [if_neg h]
        rw [toDigitsCore_append]
        rw [parseNum_append_singleton]
        have h10 : 10 ≤ n := by
          by_contra hlt
          exact h (Nat.div_eq_of_lt (by omega))
        have hdiv : n / 10 < n := Nat.div_lt_self (by omega) (by omega)
        rw [ih (n / 10) hdiv f (by omega)]
        rw [digitChar_toNat (n % 10) (Nat.mod_lt _ (by omega))]
        omega

theorem parseNum_digitsOf (n : Nat) : parseNum (digitsOf n) = n := by
  rw [digitsOf_eq_toDigits]
  exact parseNum_toDigitsCore n (n + 1) (Nat.lt_succ_self n)

theorem digitsOf_injective : Function.Injective digitsOf := by
  intro m n h
  have := congrArg parseNum h
  rwa [parseNum_digitsOf, parseNum_digitsOf] at this

theorem digitsOf_inj {m n : Nat} : digitsOf m = digitsOf n ↔ m = n :=
  ⟨fun h => digitsOf_injective h, fun h => by rw [h]⟩

/-- A decimal digit character is none of the punctuation characters used by
the generated filter graphs. -/
theorem isDigit_ne {c x : Char} (hc : c.isDigit = true) (hx : x.isDigit = false) : c ≠ x := by
  intro h
  subst h
  rw [hc] at hx
  cases hx

/-!  Counting occurrences of a pattern inside a character list.  An
occurrence at a position is counted when the pattern is a prefix of the
suffix starting there. -/

/-- Number of positions of `l` at which `pat` occurs as a substring. -/
def countSub (pat : Str) : Str → Nat
  | [] => 0
  | c :: t => (if pat.isPrefixOf (c :: t) then 1 else 0) + countSub pat t

theorem countSub_nil (pat : Str) : countSub pat [] = 0 := rfl

theorem countSub_cons (pat : Str) (c : Char) (t : Str) :
    countSub pat (c :: t) = (if pat.isPrefixOf (c :: t) then 1 else 0) + countSub pat t := rfl

/-- A prefix of an append either stays inside the left part or covers it. -/
theorem prefix_split {α : Type} {p l m : List α} (h : p <+: l ++ m) :
    p <+: l ∨ ∃ r, p = l ++ r ∧ r <+: m := by
  induction l generalizing p with
  | nil => exact Or.inr ⟨p, rfl, h⟩
  | cons x l ih =>
    match p with
    | [] => exact Or.inl List.nil_prefix
    | y :: p' =>
      rw [List.cons_append, List.cons_prefix_cons] at h
      obtain ⟨rfl, h'⟩ := h
      rcases ih h' with h'' | ⟨r, rfl, hr⟩
      · exact Or.inl (List.cons_prefix_cons.mpr ⟨rfl, h''⟩)
      · exact Or.inr ⟨r, rfl, hr⟩

/-- Splitting the count at a separator character that the pattern avoids:
no occurrence can touch the separator, so the two sides count independently. -/
theorem countSub_append_sep {pat : Str} {c : Char} (hne : pat ≠ []) (hc : c ∉ pat) :
    ∀ (a b : Str), countSub pat (a ++ c :: b) = countSub pat a + countSub pat b := by
  intro a
  induction a with
  | nil =>
    intro b
    simp only [List.nil_append, countSub_nil, countSub_cons, Nat.zero_add]
    have : ¬ pat <+: c :: b := by
      intro hp
      rcases List.prefix_cons_iff.mp hp with h0 | ⟨t, ht, _⟩
      · exact hne h0
      · exact hc (ht ▸ List.mem_cons_self c t)
    simp [this]
  | cons x a ih =>
    intro b
    have hiff : pat <+: x :: (a ++ c :: b) ↔ pat <+: x :: a := by
      constructor
      · intro hp2
        have hp2' : pat <+: (x :: a) ++ c :: b := by rw [List.cons_append]; exact hp2
        rcases prefix_split hp2' with h | ⟨r, rfl, hr⟩
        · exact h
        · rcases List.prefix_cons_iff.mp hr with h0 | ⟨t, ht, _⟩
          · subst h0
            simp
          · refine absurd ?_ hc
            rw [ht]
            exact List.mem_append.mpr (Or.inr (List.mem_cons_self c t))
      · intro hp
        have h3 : pat <+: (x :: a) ++ c :: b := hp.trans (List.prefix_append _ _)
        rwa [List.cons_append] at h3
    have heq : pat.isPrefixOf (x :: (a ++ c :: b)) = pat.isPrefixOf (x :: a) := by
      rw [Bool.eq_iff_iff]
      simpa using hiff
    simp only [List.cons_append, countSub_cons, ih b, heq]
    omega

/-- Appending a single character the pattern avoids does not change the count. -/
theorem countSub_append_last {pat : Str} {c : Char} (hne : pat ≠ []) (hc : c ∉ pat)
    (a : Str) : countSub pat (a ++ [c]) = countSub pat a := by
  have := countSub_append_sep hne hc a []
  simpa using this

/-- Characters that cannot start the pattern can be skipped. -/
theorem countSub_skip {p : Str} {hd : Char} {a : Str}
    (ha : ∀ c ∈ a, c ≠ hd) (t : Str) :
    countSub (hd :: p) (a ++ t) = countSub (hd :: p) t := by
  induction a with
  | nil => simp
  | cons x a ih =>
    have hx : x ≠ hd := ha x (List.mem_cons_self x a)
    simp only [List.cons_append, countSub_cons]
    rw [ih (fun c hc => ha c (List.mem_cons_of_mem x hc))]
    have : ¬ (hd :: p) <+: x :: (a ++ t) := by
      intro hp
      rw [List.cons_prefix_cons] at hp
      exact hx hp.1.symm
    simp [this]

/-!  The data model: a `Track` is a resolved path plus a display name
(`Track = namedtuple('Track', ['path', 'name'])` in both scripts). -/

structure Track where
  path : Str
  name : Str
deriving DecidableEq

/-!  Audio-Mix Command Builder: `generate_ffmpeg_command(tracks, output_file,
crossfade_duration)`, identical in `mix_mp3.py` and `mix_mp3a.py`. -/

/-- One element of the `inputs` list: `f"-i \"{track.path}\""`. -/
def inputFlag (t : Track) : Str := "-i \"".data ++ t.path ++ "\"".data

/-- The loop body appended to `filter_complex_parts` for index `i`:
`f"{last_output}[{i}:a]acrossfade=d={crossfade_duration}:c1=tri:c2=tri{current_output};"`
with `current_output = f"[a{i}]"`. -/
def crossfadeStage (last : Str) (i D : Nat) : Str :=
  last ++ "[".data ++ digitsOf i ++ ":a]acrossfade=d=".data ++ digitsOf D
       ++ ":c1=tri:c2=tri".data ++ ("[a".data ++ digitsOf i ++ "]".data) ++ ";".data

/-- The `for i in range(1, len(tracks))` loop: accumulates
`filter_complex_parts` and threads `last_output` (initially `"[0:a]"`). -/
def crossfadeFold (n D : Nat) : List Str × Str :=
  (List.range' 1 (n - 1)).foldl
    (fun acc i =>
      (acc.1 ++ [crossfadeStage acc.2 i D], "[a".data ++ digitsOf i ++ "]".data))
    ([], "[0:a]".data)

/-- Python's `s.rstrip(';')`: remove all trailing semicolons. -/
def rstripSemi (l : Str) : Str := (l.reverse.dropWhile (fun c => c == ';')).reverse

/-- The builder `generate_ffmpeg_command`: the full shell command string.  The
crossfade duration (a Python `int`; the data model constrains it to
seconds ≥ 0) is modelled as `Nat`. -/
def generate_ffmpeg_command (tracks : List Track) (output_file : Str)
    (crossfade_duration : Nat) : Str :=
  let inputs := tracks.map inputFlag
  let fc := crossfadeFold tracks.length crossfade_duration
  let filter_complex := rstripSemi fc.1.flatten
  "ffmpeg ".data ++ List.intercalate " ".data inputs
    ++ " -filter_complex \"".data ++ filter_complex
    ++ "\" -map \"".data ++ fc.2
    ++ "\" -c:a libmp3lame \"".data ++ output_file ++ "\"".data

/-- The label fed into stage `i` as its first operand: `[0:a]` for the first
stage, the previous intermediate label `[a(i-1)]` afterwards. -/
def prevLabel (i : Nat) : Str :=
  if i = 1 then "[0:a]".data else "[a".data ++ digitsOf (i - 1) ++ "]".data

/-- Closed form of the stage string produced for loop index `i`. -/
def stageClosed (i D : Nat) : Str := crossfadeStage (prevLabel i) i D

theorem crossfadeFold_aux (D : Nat) : ∀ m : Nat,
    (List.range' 1 m).foldl
      (fun acc i =>
        (acc.1 ++ [crossfadeStage acc.2 i D], "[a".data ++ digitsOf i ++ "]".data))
      ([], "[0:a]".data)
    = ((List.range' 1 m).map (fun i => stageClosed i D), prevLabel (m + 1)) := by
  intro m
  induction m with
  | zero => simp [prevLabel]
  | succ m ih =>
    rw [List.range'_1_concat, List.foldl_append, ih, List.map_append]
    have hlast : crossfadeStage (prevLabel (m + 1)) (1 + m) D = stageClosed (1 + m) D := by
      rw [stageClosed]
      have : prevLabel (m + 1) = prevLabel (1 + m) := by rw [Nat.add_comm]
      rw [this]
    have hnext : prevLabel (m + 1 + 1) = "[a".data ++ digitsOf (1 + m) ++ "]".data := by
      rw [prevLabel, if_neg (by omega)]
      have h2 : m + 1 + 1 - 1 = 1 + m := by omega
      rw [h2]
    simp [hlast, hnext]

theorem crossfadeFold_eq (n D : Nat) (hn : 1 ≤ n) :
    crossfadeFold n D
      = ((List.range' 1 (n - 1)).map (fun i => stageClosed i D), prevLabel n) := by
  rw [crossfadeFold, crossfadeFold_aux D (n - 1)]
  have h1 : n - 1 + 1 = n := by omega
  rw [h1]

/-!  Occurrence analysis of the crossfade filter graph.  The input-stream
label `[i:a]` interpolated by the loop is the pattern we count. -/

/-- The input-stream label `f"[{i}:a]"` referencing input `i`. -/
def inputLabel (i : Nat) : Str := "[".data ++ digitsOf i ++ ":a]".data

/-- The pattern `inputLabel i` in head/tail normal form. -/
def patOf (i : Nat) : Str := '[' :: (digitsOf i ++ [':', 'a', ']'])

theorem inputLabel_eq_patOf (i : Nat) : inputLabel i = patOf i := by
  simp [inputLabel, patOf]

theorem patOf_ne_nil (i : Nat) : patOf i ≠ [] := List.cons_ne_nil _ _

theorem semi_not_mem_patOf (i : Nat) : ';' ∉ patOf i := by
  intro h
  rcases List.mem_cons.mp h with h | h
  · exact absurd h (by decide)
  · rcases List.mem_append.mp h with h | h
    · exact absurd (digitsOf_isDigit i ';' h) (by decide)
    · simp at h

theorem digitsOf_ne_lbrack (n : Nat) : ∀ c ∈ digitsOf n, c ≠ '[' :=
  fun c hc => isDigit_ne (digitsOf_isDigit n c hc) (by decide)

/-- Skipping a run of characters that cannot start an input label. -/
theorem countSub_patOf_skip (i : Nat) {a : Str} (ha : ∀ c ∈ a, c ≠ '[') (t : Str) :
    countSub (patOf i) (a ++ t) = countSub (patOf i) t :=
  countSub_skip ha t

theorem countSub_patOf_zero (i : Nat) {a : Str} (ha : ∀ c ∈ a, c ≠ '[') :
    countSub (patOf i) a = 0 := by
  have h := countSub_patOf_skip i ha []
  simpa using h

/-- Two digit runs followed by `':'` line up exactly when they are equal. -/
theorem digitrun_prefix_iff : ∀ (da db : Str), (∀ c ∈ da, c.isDigit = true) →
    (∀ c ∈ db, c.isDigit = true) → ∀ (u v : Str),
    ((da ++ ':' :: u) <+: (db ++ ':' :: v) ↔ da = db ∧ u <+: v) := by
  intro da
  induction da with
  | nil =>
    intro db _ hdb u v
    cases db with
    | nil => simp [List.cons_prefix_cons]
    | cons d db' =>
      simp only [List.nil_append, List.cons_append, List.cons_prefix_cons]
      constructor
      · rintro ⟨h, -⟩
        exact absurd h.symm (isDigit_ne (hdb d (List.mem_cons_self d db')) (by decide))
      · rintro ⟨h, -⟩
        simp at h
  | cons e da' ih =>
    intro db hda hdb u v
    cases db with
    | nil =>
      simp only [List.cons_append, List.nil_append, List.cons_prefix_cons]
      constructor
      · rintro ⟨h, -⟩
        exact absurd h (isDigit_ne (hda e (List.mem_cons_self e da')) (by decide))
      · rintro ⟨h, -⟩
        simp at h
    | cons f db' =>
      simp only [List.cons_append, List.cons_prefix_cons]
      rw [ih db' (fun c hc => hda c (List.mem_cons_of_mem e hc))
            (fun c hc => hdb c (List.mem_cons_of_mem f hc)) u v]
      simp [List.cons.injEq, and_assoc]

/-- At the head of a genuine input-label position, `patOf i` matches exactly
when the indices agree. -/
theorem patOf_prefix_ref_iff (i j : Nat) (rest : Str) :
    patOf i <+: '[' :: (digitsOf j ++ ':' :: 'a' :: ']' :: rest) ↔ i = j := by
  rw [patOf, List.cons_prefix_cons]
  have h1 : digitsOf i ++ [':', 'a', ']'] = digitsOf i ++ ':' :: ['a', ']'] := by simp
  rw [h1, digitrun_prefix_iff (digitsOf i) (digitsOf j) (digitsOf_isDigit i)
      (digitsOf_isDigit j) ['a', ']'] ('a' :: ']' :: rest)]
  simp [digitsOf_inj, List.cons_prefix_cons]

/-- Counting across an input-label position. -/
theorem countSub_at_ref (i j : Nat) (rest : Str) :
    countSub (patOf i) ('[' :: (digitsOf j ++ ':' :: 'a' :: ']' :: rest)) =
      (if i = j then 1 else 0) + countSub (patOf i) rest := by
  rw [countSub_cons]
  have htail : countSub (patOf i) (digitsOf j ++ ':' :: 'a' :: ']' :: rest)
      = countSub (patOf i) rest := by
    have hre : digitsOf j ++ ':' :: 'a' :: ']' :: rest
        = (digitsOf j ++ [':', 'a', ']']) ++ rest := by simp
    rw [hre]
    refine countSub_patOf_skip i ?_ rest
    intro c hc
    rcases List.mem_append.mp hc with h | h
    · exact digitsOf_ne_lbrack j c h
    · simp at h
      rcases h with rfl | rfl | rfl <;> decide
  rw [htail]
  by_cases h : i = j
  · simp [List.isPrefixOf_iff_prefix, patOf_prefix_ref_iff, h]
  · simp [List.isPrefixOf_iff_prefix, patOf_prefix_ref_iff, h]

/-- Counting across an intermediate label `[a…`: never a match. -/
theorem countSub_at_interlabel (i : Nat) (rest : Str) :
    countSub (patOf i) ('[' :: 'a' :: rest) = countSub (patOf i) rest := by
  rw [countSub_cons]
  have h0 : ¬ patOf i <+: '[' :: 'a' :: rest := by
    rw [patOf, List.cons_prefix_cons]
    rintro ⟨-, h⟩
    obtain ⟨d, ds, hd⟩ : ∃ d ds, digitsOf i = d :: ds := by
      cases hcase : digitsOf i with
      | nil => exact absurd hcase (digitsOf_ne_nil i)
      | cons d ds => exact ⟨d, ds, rfl⟩
    rw [hd, List.cons_append, List.cons_prefix_cons] at h
    have hdig := digitsOf_isDigit i d (by rw [hd]; exact List.mem_cons_self d ds)
    exact absurd h.1 (isDigit_ne hdig (by decide))
  have hskip : countSub (patOf i) ('a' :: rest) = countSub (patOf i) rest := by
    have h := countSub_patOf_skip i (a := ['a'])
      (by intro c hc; simp at hc; subst hc; decide) rest
    simpa using h
  simp [h0, hskip]

/-- The part of a stage string after its `[i:a]` input label. -/
def stageTail (i D : Nat) : Str :=
  "acrossfade=d=".data ++ (digitsOf D ++ (":c1=tri:c2=tri".data
    ++ ('[' :: 'a' :: (digitsOf i ++ [']', ';']))))

/-- Normal form of a stage: previous label, then the `[i:a]` reference,
then the tail. -/
theorem stage_nf (i D : Nat) :
    stageClosed i D
      = prevLabel i ++ ('[' :: (digitsOf i ++ (':' :: 'a' :: ']' :: stageTail i D))) := by
  rw [stageClosed, crossfadeStage, stageTail]
  have h1 : ":a]acrossfade=d=".data = ':' :: 'a' :: ']' :: "acrossfade=d=".data := rfl
  have h2 : "[a".data = ('[' :: 'a' :: ([] : Str)) := rfl
  have h3 : "[".data = (['['] : Str) := rfl
  have h4 : "]".data = ([']'] : Str) := rfl
  have h5 : ";".data = ([';'] : Str) := rfl
  rw [h1, h2, h3, h4, h5]
  simp

theorem countSub_stageTail (i j D : Nat) : countSub (patOf i) (stageTail j D) = 0 := by
  rw [stageTail]
  rw [countSub_patOf_skip i (a := "acrossfade=d=".data) (by decide)]
  rw [countSub_patOf_skip i (digitsOf_ne_lbrack D)]
  rw [countSub_patOf_skip i (a := ":c1=tri:c2=tri".data) (by decide)]
  rw [countSub_at_interlabel]
  refine countSub_patOf_zero i ?_
  intro c hc
  rcases List.mem_append.mp hc with h | h
  · exact digitsOf_ne_lbrack j c h
  · simp at h
    rcases h with rfl | rfl <;> decide

/-- Exact occurrence count of `[i:a]` in the stage generated for index `j`. -/
theorem countSub_stageClosed (i j D : Nat) :
    countSub (patOf i) (stageClosed j D)
      = (if j = 1 then (if i = 0 then 1 else 0) else 0) + (if i = j then 1 else 0) := by
  rw [stage_nf]
  by_cases h1 : j = 1
  · subst h1
    rw [prevLabel, if_pos rfl]
    have hsh : "[0:a]".data ++ ('[' :: (digitsOf 1 ++ (':' :: 'a' :: ']' :: stageTail 1 D)))
        = '[' :: (digitsOf 0 ++ ':' :: 'a' :: ']' ::
            ('[' :: (digitsOf 1 ++ ':' :: 'a' :: ']' :: stageTail 1 D))) := rfl
    rw [hsh, countSub_at_ref, countSub_at_ref, countSub_stageTail]
    simp
  · rw [prevLabel, if_neg h1]
    have hsh : ("[a".data ++ digitsOf (j - 1) ++ "]".data)
          ++ ('[' :: (digitsOf j ++ (':' :: 'a' :: ']' :: stageTail j D)))
        = '[' :: 'a' :: (digitsOf (j - 1)
            ++ (']' :: ('[' :: (digitsOf j ++ ':' :: 'a' :: ']' :: stageTail j D)))) := by
      have h2 : "[a".data = ('[' :: 'a' :: ([] : Str)) := rfl
      have h4 : "]".data = ([']'] : Str) := rfl
      rw [h2, h4]
      simp
    rw [hsh, countSub_at_interlabel]
    rw [countSub_patOf_skip i (digitsOf_ne_lbrack (j - 1))]
    have hsk : countSub (patOf i) (']' :: ('[' :: (digitsOf j ++ ':' :: 'a' :: ']' :: stageTail j D)))
        = countSub (patOf i) ('[' :: (digitsOf j ++ ':' :: 'a' :: ']' :: stageTail j D)) := by
      have h := countSub_patOf_skip i (a := ([']'] : Str))
        (by intro c hc; simp at hc; subst hc; decide)
        ('[' :: (digitsOf j ++ ':' :: 'a' :: ']' :: stageTail j D))
      simpa using h
    rw [hsk, countSub_at_ref, countSub_stageTail, if_neg h1]
    omega

theorem stageClosed_ends_semi (i D : Nat) : ∃ b : Str, stageClosed i D = b ++ [';'] := by
  refine ⟨prevLabel i ++ ('[' :: (digitsOf i ++ (':' :: 'a' :: ']' ::
    ("acrossfade=d=".data ++ (digitsOf D ++ (":c1=tri:c2=tri".data
      ++ ('[' :: 'a' :: (digitsOf i ++ [']'])))))))), ?_⟩
  rw [stage_nf, stageTail]
  simp

/-- Occurrences in a concatenation of `';'`-terminated chunks add up, for a
pattern avoiding `';'`. -/
theorem countSub_flatten_semis {pat : Str} (hne : pat ≠ []) (hsemi : ';' ∉ pat) :
    ∀ ss : List Str, (∀ s ∈ ss, ∃ b, s = b ++ [';']) →
      countSub pat ss.flatten = (ss.map (countSub pat)).sum := by
  intro ss
  induction ss with
  | nil => intro _; simp [countSub_nil]
  | cons s ss ih =>
    intro h
    obtain ⟨b, hb⟩ := h s (List.mem_cons_self s ss)
    rw [List.flatten_cons, List.map_cons, List.sum_cons, hb]
    have h1 : (b ++ [';']) ++ ss.flatten = b ++ ';' :: ss.flatten := by simp
    rw [h1, countSub_append_sep hne hsemi b ss.flatten,
        ih (fun s hs => h s (List.mem_cons_of_mem _ hs)),
        countSub_append_last hne hsemi b]

theorem countSub_append_replicate_semi {pat : Str} (hne : pat ≠ []) (hsemi : ';' ∉ pat) :
    ∀ (k : Nat) (a : Str), countSub pat (a ++ List.replicate k ';') = countSub pat a := by
  intro k
  induction k with
  | zero => intro a; simp
  | succ k ih =>
    intro a
    rw [List.replicate_succ, countSub_append_sep hne hsemi a (List.replicate k ';')]
    have h0 : countSub pat (List.replicate k ';') = 0 := by
      have h := ih []
      simpa using h
    omega

theorem rstripSemi_decomp (l : Str) :
    ∃ k, l = rstripSemi l ++ List.replicate k ';' := by
  refine ⟨(l.reverse.takeWhile (fun c => c == ';')).length, ?_⟩
  have hrep : l.reverse.takeWhile (fun c => c == ';')
      = List.replicate (l.reverse.takeWhile (fun c => c == ';')).length ';' := by
    apply List.eq_replicate_of_mem
    intro b hb
    have := List.mem_takeWhile_imp hb
    simpa using this
  conv_lhs => rw [← l.reverse_reverse,
    ← List.takeWhile_append_dropWhile (p := fun c => c == ';') (l := l.reverse)]
  rw [List.reverse_append, rstripSemi]
  congr 1
  conv_lhs => rw [hrep]
  rw [List.reverse_replicate]

theorem countSub_rstripSemi {pat : Str} (hne : pat ≠ []) (hsemi : ';' ∉ pat) (l : Str) :
    countSub pat (rstripSemi l) = countSub pat l := by
  obtain ⟨k, hk⟩ := rstripSemi_decomp l
  conv_rhs => rw [hk]
  rw [countSub_append_replicate_semi hne hsemi k (rstripSemi l)]

theorem sum_indicator_range' (i : Nat) : ∀ (m s : Nat),
    (((List.range' s m).map (fun j => if i = j then 1 else 0)).sum)
      = if s ≤ i ∧ i < s + m then 1 else 0 := by
  intro m
  induction m with
  | zero =>
    intro s
    simp only [List.range'_zero, List.map_nil, List.sum_nil]
    rw [if_neg (by omega)]
  | succ m ih =>
    intro s
    rw [List.range'_succ, List.map_cons, List.sum_cons, ih (s + 1)]
    split_ifs <;> omega

/-- Every input index `i < n` is referenced exactly once in the filter graph
produced for `n` tracks (after the trailing-semicolon strip). -/
theorem countSub_filterComplex (n D : Nat) (hn : 2 ≤ n) (i : Nat) (hi : i < n) :
    countSub (inputLabel i) (rstripSemi ((crossfadeFold n D).1.flatten)) = 1 := by
  rw [inputLabel_eq_patOf,
      countSub_rstripSemi (patOf_ne_nil i) (semi_not_mem_patOf i),
      crossfadeFold_eq n D (by omega)]
  rw [countSub_flatten_semis (patOf_ne_nil i) (semi_not_mem_patOf i) _
      (by intro s hs
          obtain ⟨j, -, rfl⟩ := List.mem_map.mp hs
          exact stageClosed_ends_semi j D)]
  rw [List.map_map]
  have hsplit : List.range' 1 (n - 1) = 1 :: List.range' 2 (n - 2) := by
    have h : n - 1 = (n - 2) + 1 := by omega
    rw [h, List.range'_succ]
  rw [hsplit, List.map_cons, List.sum_cons]
  have hc1 : (countSub (patOf i) ∘ fun k => stageClosed k D) 1
      = (if i = 0 then 1 else 0) + (if i = 1 then 1 else 0) := by
    show countSub (patOf i) (stageClosed 1 D) = _
    rw [countSub_stageClosed]
    simp
  have hmap : (List.range' 2 (n - 2)).map (countSub (patOf i) ∘ fun k => stageClosed k D)
      = (List.range' 2 (n - 2)).map (fun j => if i = j then 1 else 0) := by
    apply List.map_congr_left
    intro j hj
    have hj2 : 2 ≤ j := by
      have h := List.mem_range'_1.mp hj
      omega
    show countSub (patOf i) (stageClosed j D) = _
    rw [countSub_stageClosed, if_neg (by omega)]
    omega
  rw [hc1, hmap, sum_indicator_range' i (n - 2) 2]
  split_ifs <;> omega

/-- Claim C1: for every list of `N ≥ 2` tracks, output path and crossfade
duration `D`, `generate_ffmpeg_command` declares exactly `N` inputs in
playlist order; its filter graph is exactly the chain of `N−1` binary
crossfade stages — the first crossfading `[0:a]` and `[1:a]` into `[a1]`,
stage `i` crossfading `[a(i−1)]` with `[i:a]` into `[ai]` — every one with
duration `D` and symmetric `tri`/`tri` curves; every input index `0..N−1`
is referenced exactly once in the filter graph; and the command maps only
the last intermediate label `[a(N−1)]` to the output path with libmp3lame
encoding. -/
theorem audio_mix_command_spec (tracks : List Track) (out : Str) (D : Nat)
    (h2 : 2 ≤ tracks.length) :
    (tracks.map inputFlag).length = tracks.length ∧
    (tracks.map inputFlag = tracks.map (fun t => "-i \"".data ++ t.path ++ "\"".data)) ∧
    (crossfadeFold tracks.length D).1
      = (List.range' 1 (tracks.length - 1)).map (fun i =>
          (if i = 1 then "[0:a]".data
           else "[a".data ++ digitsOf (i - 1) ++ "]".data)
          ++ "[".data ++ digitsOf i ++ ":a]acrossfade=d=".data ++ digitsOf D
          ++ ":c1=tri:c2=tri".data ++ ("[a".data ++ digitsOf i ++ "]".data) ++ ";".data) ∧
    ((crossfadeFold tracks.length D).1).length = tracks.length - 1 ∧
    (∀ i, i < tracks.length →
      countSub (inputLabel i)
        (rstripSemi ((crossfadeFold tracks.length D).1.flatten)) = 1) ∧
    generate_ffmpeg_command tracks out D
      = "ffmpeg ".data ++ List.intercalate " ".data (tracks.map inputFlag)
        ++ " -filter_complex \"".data
        ++ rstripSemi ((crossfadeFold tracks.length D).1.flatten)
        ++ "\" -map \"".data ++ ("[a".data ++ digitsOf (tracks.length - 1) ++ "]".data)
        ++ "\" -c:a libmp3lame \"".data ++ out ++ "\"".data := by
  refine ⟨List.length_map tracks inputFlag, rfl, ?_, ?_, ?_, ?_⟩
  · rw [crossfadeFold_eq tracks.length D (by omega)]
    exact rfl
  · rw [crossfadeFold_eq tracks.length D (by omega)]
    simp
  · intro i hi
    exact countSub_filterComplex tracks.length D h2 i hi
  · rw [generate_ffmpeg_command]
    rw [crossfadeFold_eq tracks.length D (by omega)]
    rw [prevLabel, if_neg (by omega)]

/-- Concrete three-track playlist used to witness the audio-mix claim. -/
def wTracks : List Track :=
  [⟨"intro.mp3".data, "intro".data⟩, ⟨"main.mp3".data, "main".data⟩,
   ⟨"outro.mp3".data, "outro".data⟩]

theorem audio_mix_command_spec_witness :
    2 ≤ wTracks.length ∧
    ((wTracks.map inputFlag).length = wTracks.length ∧
    (wTracks.map inputFlag = wTracks.map (fun t => "-i \"".data ++ t.path ++ "\"".data)) ∧
    (crossfadeFold wTracks.length 5).1
      = (List.range' 1 (wTracks.length - 1)).map (fun i =>
          (if i = 1 then "[0:a]".data
           else "[a".data ++ digitsOf (i - 1) ++ "]".data)
          ++ "[".data ++ digitsOf i ++ ":a]acrossfade=d=".data ++ digitsOf 5
          ++ ":c1=tri:c2=tri".data ++ ("[a".data ++ digitsOf i ++ "]".data) ++ ";".data) ∧
    ((crossfadeFold wTracks.length 5).1).length = wTracks.length - 1 ∧
    (∀ i, i < wTracks.length →
      countSub (inputLabel i)
        (rstripSemi ((crossfadeFold wTracks.length 5).1.flatten)) = 1) ∧
    generate_ffmpeg_command wTracks "mix.mp3".data 5
      = "ffmpeg ".data ++ List.intercalate " ".data (wTracks.map inputFlag)
        ++ " -filter_complex \"".data
        ++ rstripSemi ((crossfadeFold wTracks.length 5).1.flatten)
        ++ "\" -map \"".data ++ ("[a".data ++ digitsOf (wTracks.length - 1) ++ "]".data)
        ++ "\" -c:a libmp3lame \"".data ++ "mix.mp3".data ++ "\"".data) :=
  ⟨by decide, audio_mix_command_spec wTracks "mix.mp3".data 5 (by decide)⟩

/-- Claim C10: for a single-track list the builder still returns a command —
the crossfade loop contributes no stage, the `-filter_complex` argument is
the empty string, and the label `[0:a]` is mapped directly to the output
path with libmp3lame encoding. -/
theorem single_track_command (t : Track) (out : Str) (D : Nat) :
    (crossfadeFold 1 D).1 = [] ∧
    rstripSemi ((crossfadeFold 1 D).1.flatten) = [] ∧
    generate_ffmpeg_command [t] out D
      = "ffmpeg ".data ++ inputFlag t
        ++ " -filter_complex \"".data ++ ([] : Str)
        ++ "\" -map \"".data ++ "[0:a]".data
        ++ "\" -c:a libmp3lame \"".data ++ out ++ "\"".data := by
  refine ⟨rfl, rfl, ?_⟩
  rw [generate_ffmpeg_command]
  have h1 : crossfadeFold [t].length D = ([], "[0:a]".data) := rfl
  rw [h1]
  simp [List.intercalate, List.intersperse_singleton, rstripSemi]

/-!  Video Command Builder, fixed-timing variant
(`generate_waveform_with_text` in `mix_mp3.py`).  The function also runs
the command via subprocess; only the pure command construction is embedded.
Single quotes and braces appearing in the generated ffmpeg expressions are
written with `\x27` / `\x7b` / `\x7d` escapes. -/

/-- The replacement block of `track.name.replace("'", "'\\\\\\''")` — a
quote, three backslashes, and two quotes. -/
def escBlock : Str := "\x27\\\\\\\x27\x27".data

/-- The escaping `track.name.replace("'", "'\\\\\\''")`: since the pattern is the single
character `'`, Python's `str.replace` is exactly this per-character
substitution. -/
def escQuote (name : Str) : Str :=
  name.flatMap (fun c => if c = '\x27' then escBlock else [c])

/-- The per-track caption filter of `mix_mp3.py`, enabled on the fixed
60-second window `[60·i, 60·(i+1)]`. -/
def trackCaption (i : Nat) (t : Track) : Str :=
  "drawtext=fontsize=24:fontcolor=white:box=1:boxcolor=black@0.5:boxborderw=5:x=10:y=h-th-10:text=\x27".data
    ++ escQuote t.name
    ++ "\x27:enable=\x27between(t,".data ++ digitsOf (i * 60) ++ ",".data
    ++ digitsOf ((i + 1) * 60) ++ ")\x27".data

/-- The persistent running-time caption (`text='%{pts\:hms}'`, at
`x=w-tw-10`), appended after the per-track captions. -/
def ptsCaption : Str :=
  "drawtext=fontsize=24:fontcolor=white:box=1:boxcolor=black@0.5:boxborderw=5:x=w-tw-10:y=h-th-10:text=\x27%\x7bpts\\:hms\x7d\x27".data

/-- The `text_filters` list of `mix_mp3.py`: one caption per enumerated
track, then the running-time caption. -/
def textFiltersFixed (tracks : List Track) : List Str :=
  (tracks.enum.foldl (fun acc p => acc ++ [trackCaption p.1 p.2]) []) ++ [ptsCaption]

/-- The `filter_complex` of the video command of `mix_mp3.py`. -/
def videoFilterFixed (tracks : List Track) : Str :=
  "[0:v]scale=1000:1000[bg];[1:a]showwaves=s=1000x1000:mode=line:colors=white[waves];[bg][waves]overlay=format=auto,format=yuv420p,".data
    ++ List.intercalate ",".data (textFiltersFixed tracks) ++ "[v]".data

/-- The `waveform_command` argument list of `mix_mp3.py` (built as a Python
list, so embedded as a list of argument strings). -/
def waveformCommand (audioIn outVideo bg : Str) (tracks : List Track) : List Str :=
  ["ffmpeg".data, "-loop".data, "1".data, "-i".data, bg, "-i".data, audioIn,
   "-filter_complex".data, videoFilterFixed tracks, "-map".data, "[v]".data,
   "-map".data, "1:a".data, "-c:v".data, "libx264".data, "-c:a".data, "copy".data,
   "-shortest".data, outVideo, "-y".data]

theorem foldl_append_map {α β : Type} (f : α → β) :
    ∀ (l : List α) (acc : List β),
      l.foldl (fun acc x => acc ++ [f x]) acc = acc ++ l.map f := by
  intro l
  induction l with
  | nil => intro acc; simp
  | cons x l ih =>
    intro acc
    simp only [List.foldl_cons, List.map_cons]
    rw [ih]
    simp

/-- Claim C5: under the fixed-timing policy the filter list holds exactly one
caption per track — the `i`-th enabled on `between(t, i·60, (i+1)·60)` at the
fixed location `x=10:y=h-th-10` — followed by exactly one persistent caption
at the other location `x=w-tw-10:y=h-th-10` whose text is the running
timestamp `%{pts\:hms}` (hours:minutes:seconds) and which carries no
`enable=` time window. -/
theorem fixed_timing_captions (tracks : List Track) :
    textFiltersFixed tracks
      = tracks.enum.map (fun p =>
          "drawtext=fontsize=24:fontcolor=white:box=1:boxcolor=black@0.5:boxborderw=5:x=10:y=h-th-10:text=\x27".data
            ++ escQuote p.2.name
            ++ "\x27:enable=\x27between(t,".data ++ digitsOf (p.1 * 60) ++ ",".data
            ++ digitsOf ((p.1 + 1) * 60) ++ ")\x27".data)
        ++ ["drawtext=fontsize=24:fontcolor=white:box=1:boxcolor=black@0.5:boxborderw=5:x=w-tw-10:y=h-th-10:text=\x27%\x7bpts\\:hms\x7d\x27".data] ∧
    (textFiltersFixed tracks).length = tracks.length + 1 ∧
    countSub "enable".data ptsCaption = 0 := by
  refine ⟨?_, ?_, by decide⟩
  · rw [textFiltersFixed, foldl_append_map (fun p : Nat × Track => trackCaption p.1 p.2)]
    rfl
  · rw [textFiltersFixed, foldl_append_map (fun p : Nat × Track => trackCaption p.1 p.2)]
    simp [List.enum_length]

/-!  Quoting discipline of ffmpeg filter expressions: inside a
single-quoted region every character is literal until the closing quote;
outside, a backslash escapes the next character.  A string is well formed
when a scan ends outside any quote with no pending escape. -/

inductive QS where
  | outside : QS
  | inside : QS
  | pending : QS
deriving DecidableEq

/-- One step of the quote scanner. -/
def qstep : QS → Char → QS
  | QS.outside, c =>
    if c = '\x27' then QS.inside else if c = '\\' then QS.pending else QS.outside
  | QS.inside, c => if c = '\x27' then QS.outside else QS.inside
  | QS.pending, _ => QS.outside

def qscan (s : QS) (l : Str) : QS := l.foldl qstep s

/-- Well-formed quoting: the scan of the whole expression, started outside
any quote, ends outside with no unterminated quoted region or dangling
escape. -/
def quoteBalanced (l : Str) : Bool := qscan QS.outside l == QS.outside

theorem qscan_append (s : QS) (a b : Str) :
    qscan s (a ++ b) = qscan (qscan s a) b := List.foldl_append ..

/-- Characters other than a quote keep the scanner inside the quoted
region. -/
theorem qscan_inside_no_quote : ∀ {l : Str}, (∀ c ∈ l, c ≠ '\x27') →
    qscan QS.inside l = QS.inside := by
  intro l
  induction l with
  | nil => intro _; rfl
  | cons c t ih =>
    intro h
    have hc : c ≠ '\x27' := h c (List.mem_cons_self c t)
    show qscan (qstep QS.inside c) t = QS.inside
    rw [show qstep QS.inside c = QS.inside from by simp [qstep, hc]]
    exact ih (fun c hc' => h c (List.mem_cons_of_mem _ hc'))

/-- The escaped name never leaves the quoted region: ordinary characters
are literal, and each escape block `'\\\''` exits, emits `\` and `'`
under escapes, and re-enters. -/
theorem qscan_inside_escQuote : ∀ name : Str,
    qscan QS.inside (escQuote name) = QS.inside := by
  intro name
  induction name with
  | nil => rfl
  | cons c t ih =>
    have hstep : escQuote (c :: t) = (if c = '\x27' then escBlock else [c]) ++ escQuote t := by
      simp [escQuote]
    rw [hstep, qscan_append]
    by_cases hc : c = '\x27'
    · rw [if_pos hc]
      rw [show qscan QS.inside escBlock = QS.inside from rfl]
      exact ih
    · rw [if_neg hc]
      rw [show qscan QS.inside [c] = qstep QS.inside c from rfl]
      rw [show qstep QS.inside c = QS.inside from by simp [qstep, hc]]
      exact ih

/-- Claim C4: for every track whose name contains a single quote, the
escaping `name.replace("'", "'\\\\\\''")` leaves the generated drawtext
filter's quoting balanced — the scan of the whole per-track caption ends
outside any quote, with no unterminated quoted region — and, generally,
the escaped name keeps the scanner inside the quoted region it is
interpolated into. -/
theorem escaped_name_balanced (t : Track) (i : Nat) (_hq : '\x27' ∈ t.name) :
    quoteBalanced (trackCaption i t) = true ∧
    qscan QS.inside (escQuote t.name) = QS.inside := by
  refine ⟨?_, qscan_inside_escQuote t.name⟩
  rw [quoteBalanced, trackCaption]
  rw [qscan_append, qscan_append, qscan_append, qscan_append, qscan_append, qscan_append]
  rw [show qscan QS.outside "drawtext=fontsize=24:fontcolor=white:box=1:boxcolor=black@0.5:boxborderw=5:x=10:y=h-th-10:text=\x27".data = QS.inside from rfl]
  rw [qscan_inside_escQuote t.name]
  rw [show qscan QS.inside "\x27:enable=\x27between(t,".data = QS.inside from rfl]
  rw [qscan_inside_no_quote (fun c hc =>
    isDigit_ne (digitsOf_isDigit (i * 60) c hc) (by decide))]
  rw [show qscan QS.inside ",".data = QS.inside from rfl]
  rw [qscan_inside_no_quote (fun c hc =>
    isDigit_ne (digitsOf_isDigit ((i + 1) * 60) c hc) (by decide))]
  rfl

/-- Concrete track with a quote in its name, witnessing the escaping claim. -/
def wQuoteTrack : Track := ⟨"its.mp3".data, "it\x27s".data⟩

theorem escaped_name_balanced_witness :
    '\x27' ∈ wQuoteTrack.name ∧
    (quoteBalanced (trackCaption 0 wQuoteTrack) = true ∧
     qscan QS.inside (escQuote wQuoteTrack.name) = QS.inside) :=
  ⟨by decide, escaped_name_balanced wQuoteTrack 0 (by decide)⟩

/-!  Video Command Builder, accurate-timing variant
(`generate_waveform_with_text` in `mix_mp3a.py`).  The per-track duration
comes from `get_audio_duration` (an ffprobe subprocess); it enters the
model as an oracle `dur : Str → ℚ` from the track path to the probed
duration in seconds.  The textual rendering of a duration value is
`ratStr`; the wave colour, opacity and visualisation type are passed as
the strings interpolated into the command. -/

def ratStr (q : ℚ) : Str := (toString q).data

/-- Per-track caption of `mix_mp3a.py`, enabled on
`between(t, start_time, end_time)`. -/
def trackCaptionA (ts : Nat) (tc : Str) (name : Str) (st en : ℚ) : Str :=
  "drawtext=fontsize=".data ++ digitsOf ts ++ ":fontcolor=".data ++ tc
    ++ ":box=1:boxcolor=black@0.5:boxborderw=5:x=10:y=h-th-10:text=\x27".data
    ++ escQuote name
    ++ "\x27:enable=\x27between(t,".data ++ ratStr st ++ ",".data ++ ratStr en
    ++ ")\x27".data

/-- Persistent running-time caption of `mix_mp3a.py`. -/
def ptsCaptionA (ts : Nat) (tc : Str) : Str :=
  "drawtext=fontsize=".data ++ digitsOf ts ++ ":fontcolor=".data ++ tc
    ++ ":box=1:boxcolor=black@0.5:boxborderw=5:x=w-tw-10:y=h-th-10:text=\x27%\x7bpts\\:hms\x7d\x27".data

/-- State threaded by the caption loop of `mix_mp3a.py`: the `text_filters`
list and the running `total_duration`, together with the start/end window
of each caption (implicit in the generated filter strings). -/
structure AOut where
  filters : List Str
  windows : List (ℚ × ℚ)
  total : ℚ
deriving DecidableEq

/-- The `for i, track in enumerate(tracks)` loop of `mix_mp3a.py`:
`start_time = total_duration`, `end_time = start_time + track_duration`,
append the caption, `total_duration += track_duration`. -/
def captionsA (dur : Str → ℚ) (ts : Nat) (tc : Str) (tracks : List Track) : AOut :=
  tracks.foldl
    (fun acc t =>
      let st := acc.total
      let d := dur t.path
      let en := st + d
      { filters := acc.filters ++ [trackCaptionA ts tc t.name st en],
        windows := acc.windows ++ [(st, en)],
        total := acc.total + d })
    ⟨[], [], 0⟩

/-- The `filter_complex` of the video command of `mix_mp3a.py`. -/
def videoFilterA (dur : Str → ℚ) (vt wc wo tc : Str) (ts : Nat)
    (tracks : List Track) : Str :=
  "[0:v]scale=1000:1000[bg];[1:a]showwaves=s=1000x1000:mode=".data ++ vt
    ++ ":colors=".data ++ wc ++ "@".data ++ wo
    ++ "[waves];[bg][waves]overlay=format=auto,format=yuv420p,".data
    ++ List.intercalate ",".data ((captionsA dur ts tc tracks).filters ++ [ptsCaptionA ts tc])
    ++ "[v]".data

/-- The `waveform_command` argument list of `mix_mp3a.py`. -/
def waveformCommandA (audioIn outVideo bg : Str) (tracks : List Track)
    (dur : Str → ℚ) (vt wc wo tc : Str) (ts : Nat) : List Str :=
  ["ffmpeg".data, "-loop".data, "1".data, "-i".data, bg, "-i".data, audioIn,
   "-filter_complex".data, videoFilterA dur vt wc wo tc ts tracks,
   "-map".data, "[v]".data, "-map".data, "1:a".data,
   "-c:v".data, "libx264".data, "-c:a".data, "copy".data,
   "-t".data, ratStr (captionsA dur ts tc tracks).total,
   outVideo, "-y".data]

/-- Sum of the probed durations of the first `i` tracks. -/
def durSum (dur : Str → ℚ) (tracks : List Track) (i : Nat) : ℚ :=
  ((tracks.take i).map (fun t => dur t.path)).sum

theorem durSum_zero (dur : Str → ℚ) (tracks : List Track) : durSum dur tracks 0 = 0 := rfl

theorem durSum_cons_succ (dur : Str → ℚ) (t : Track) (ts : List Track) (i : Nat) :
    durSum dur (t :: ts) (i + 1) = dur t.path + durSum dur ts i := by
  simp [durSum, List.take_succ_cons]

theorem captionsA_aux (dur : Str → ℚ) (ts : Nat) (tc : Str) :
    ∀ (tracks : List Track) (a : AOut),
      (tracks.foldl
        (fun acc t =>
          let st := acc.total
          let d := dur t.path
          let en := st + d
          { filters := acc.filters ++ [trackCaptionA ts tc t.name st en],
            windows := acc.windows ++ [(st, en)],
            total := acc.total + d }) a).windows
        = a.windows ++ (List.range tracks.length).map
            (fun i => (a.total + durSum dur tracks i, a.total + durSum dur tracks (i + 1))) ∧
      (tracks.foldl
        (fun acc t =>
          let st := acc.total
          let d := dur t.path
          let en := st + d
          { filters := acc.filters ++ [trackCaptionA ts tc t.name st en],
            windows := acc.windows ++ [(st, en)],
            total := acc.total + d }) a).total
        = a.total + durSum dur tracks tracks.length := by
  intro tracks
  induction tracks with
  | nil => intro a; simp [durSum]
  | cons t tr ih =>
    intro a
    rw [List.foldl_cons]
    obtain ⟨ihw, iht⟩ := ih
      { filters := a.filters ++ [trackCaptionA ts tc t.name a.total (a.total + dur t.path)],
        windows := a.windows ++ [(a.total, a.total + dur t.path)],
        total := a.total + dur t.path }
    constructor
    · rw [ihw]
      rw [List.length_cons, List.range_succ_eq_map, List.map_cons, List.map_map]
      rw [List.append_assoc]
      congr 1
      rw [List.cons_append]  -- reorganize [(st,en)] ++ map = (st,en) :: map
      congr 1
      · rw [durSum_zero, durSum_cons_succ, durSum_zero]
        norm_num
      · rw [List.nil_append]
        apply List.map_congr_left
        intro i _
        show (a.total + dur t.path + durSum dur tr i, a.total + dur t.path + durSum dur tr (i + 1))
          = (a.total + durSum dur (t :: tr) (i + 1), a.total + durSum dur (t :: tr) (i + 1 + 1))
        rw [durSum_cons_succ, durSum_cons_succ, add_assoc, add_assoc]
    · rw [iht, List.length_cons, durSum_cons_succ]
      ring

theorem captionsA_windows (dur : Str → ℚ) (ts : Nat) (tc : Str) (tracks : List Track) :
    (captionsA dur ts tc tracks).windows
      = (List.range tracks.length).map
          (fun i => (durSum dur tracks i, durSum dur tracks (i + 1))) := by
  have h1 := (captionsA_aux dur ts tc tracks ⟨[], [], 0⟩).1
  rw [captionsA]
  rw [h1]
  simp

theorem captionsA_total (dur : Str → ℚ) (ts : Nat) (tc : Str) (tracks : List Track) :
    (captionsA dur ts tc tracks).total = (tracks.map (fun t => dur t.path)).sum := by
  have h1 := (captionsA_aux dur ts tc tracks ⟨[], [], 0⟩).2
  rw [captionsA]
  rw [h1]
  simp [durSum, List.take_length]

theorem durSum_succ_get (dur : Str → ℚ) : ∀ (tracks : List Track) (i : Nat)
    (hi : i < tracks.length),
    durSum dur tracks (i + 1) = durSum dur tracks i + dur (tracks.get ⟨i, hi⟩).path := by
  intro tracks
  induction tracks with
  | nil => intro i hi; simp at hi
  | cons t tr ih =>
    intro i hi
    cases i with
    | zero => simp [durSum_cons_succ, durSum_zero]
    | succ i =>
      rw [durSum_cons_succ, durSum_cons_succ, ih i (by simpa using hi)]
      show dur t.path + (durSum dur tr i + dur (tr.get ⟨i, _⟩).path) = _
      rw [← add_assoc]
      rfl

/-- Claim C2: under the accurate-timing policy (`mix_mp3a.py`) the caption
enable windows are contiguous and non-overlapping: the `i`-th window starts
at the sum of the probed durations of tracks `0..i−1` (`0` for `i = 0`),
ends at that start plus track `i`'s probed duration, and each window's
start equals the previous window's end; the accumulated total equals the
sum of all probed durations. -/
theorem accurate_timing_windows (dur : Str → ℚ) (ts : Nat) (tc : Str)
    (tracks : List Track) :
    (captionsA dur ts tc tracks).windows
      = (List.range tracks.length).map
          (fun i => (durSum dur tracks i, durSum dur tracks (i + 1))) ∧
    (∀ i (hi : i < tracks.length),
      durSum dur tracks (i + 1)
        = durSum dur tracks i + dur (tracks.get ⟨i, hi⟩).path) ∧
    List.Chain' (fun a b => b.1 = a.2) (captionsA dur ts tc tracks).windows ∧
    (captionsA dur ts tc tracks).total = (tracks.map (fun t => dur t.path)).sum := by
  refine ⟨captionsA_windows dur ts tc tracks, durSum_succ_get dur tracks, ?_,
    captionsA_total dur ts tc tracks⟩
  rw [captionsA_windows dur ts tc tracks]
  rw [List.chain'_map]
  cases hn : tracks.length with
  | zero => simp
  | succ n =>
    rw [List.chain'_range_succ]
    intro m _
    rfl

/-- Concrete duration oracle for the witness playlist. -/
def wDur : Str → ℚ :=
  fun p => if p = "intro.mp3".data then 3 else if p = "main.mp3".data then 4 else 5

theorem accurate_timing_windows_witness :
    (captionsA wDur 24 "orange".data wTracks).windows
      = (List.range wTracks.length).map
          (fun i => (durSum wDur wTracks i, durSum wDur wTracks (i + 1))) ∧
    (captionsA wDur 24 "orange".data wTracks).total
      = (wTracks.map (fun t => wDur t.path)).sum :=
  ⟨(accurate_timing_windows wDur 24 "orange".data wTracks).1,
   (accurate_timing_windows wDur 24 "orange".data wTracks).2.2.2⟩

/-- Claim C6: both video commands re-encode the video stream with libx264
and pass the audio through unchanged (`-c:a copy`); the fixed-timing
command (`mix_mp3.py`) caps the output at the natural shortest-stream
length via `-shortest`, while the accurate-timing command (`mix_mp3a.py`)
caps it via `-t` set to the accumulated total of all probed track
durations. -/
theorem video_encode_commands (audioIn outV bg : Str) (tracks : List Track)
    (dur : Str → ℚ) (vt wc wo tc : Str) (ts : Nat) :
    waveformCommand audioIn outV bg tracks
      = ["ffmpeg".data, "-loop".data, "1".data, "-i".data, bg, "-i".data, audioIn,
         "-filter_complex".data, videoFilterFixed tracks, "-map".data, "[v]".data,
         "-map".data, "1:a".data, "-c:v".data, "libx264".data, "-c:a".data, "copy".data,
         "-shortest".data, outV, "-y".data] ∧
    waveformCommandA audioIn outV bg tracks dur vt wc wo tc ts
      = ["ffmpeg".data, "-loop".data, "1".data, "-i".data, bg, "-i".data, audioIn,
         "-filter_complex".data, videoFilterA dur vt wc wo tc ts tracks,
         "-map".data, "[v]".data, "-map".data, "1:a".data,
         "-c:v".data, "libx264".data, "-c:a".data, "copy".data,
         "-t".data, ratStr ((tracks.map (fun t => dur t.path)).sum),
         outV, "-y".data] := by
  refine ⟨rfl, ?_⟩
  rw [waveformCommandA, captionsA_total]

/-!  Playlist Reader: `read_m3u_playlist`, identical in both scripts.
`os.path` helpers (posix flavour) are embedded character-exactly. -/

/-- Python's `str.strip()` whitespace class (ASCII part). -/
def pyIsSpace (c : Char) : Bool :=
  c == ' ' || c == '\t' || c == '\n' || c == '\r' || c == '\x0b' || c == '\x0c'

/-- Python's `line.strip()`. -/
def pyStrip (l : Str) : Str :=
  ((l.dropWhile pyIsSpace).reverse.dropWhile pyIsSpace).reverse

/-- Python's `line.startswith('#')`. -/
def startsWithHash : Str → Bool
  | [] => false
  | c :: _ => c == '#'

/-- The guard `if line and not line.startswith('#')`. -/
def lineValid (l : Str) : Bool := !l.isEmpty && !startsWithHash l

def startsWithSlash : Str → Bool
  | [] => false
  | c :: _ => c == '/'

def endsWithSlash (l : Str) : Bool := startsWithSlash l.reverse

/-- Python's `os.path.join(a, b)` (posix): an absolute `b` wins; otherwise a `/` is
inserted unless `a` is empty or already ends with one. -/
def osJoin (a b : Str) : Str :=
  if startsWithSlash b then b
  else if a.isEmpty || endsWithSlash a then a ++ b
  else a ++ '/' :: b

/-- Python's `os.path.basename(p)` (posix): the part after the last `/`. -/
def pyBasename (p : Str) : Str := (p.reverse.takeWhile (fun c => !(c == '/'))).reverse

/-- Python's `os.path.dirname(p)` (posix): everything up to the last `/`, with
trailing slashes stripped unless the head is all slashes. -/
def pyDirname (p : Str) : Str :=
  let head := (p.reverse.dropWhile (fun c => !(c == '/'))).reverse
  if head.isEmpty then head
  else if head.all (fun c => c == '/') then head
  else (head.reverse.dropWhile (fun c => c == '/')).reverse

/-- Python's `os.path.splitext(b)[0]` on a basename: drop the last extension, but a
dot run at the very start of the name is not an extension. -/
def splitextRoot (b : Str) : Str :=
  match b.reverse.dropWhile (fun c => !(c == '.')) with
  | [] => b
  | _ :: preRev => if preRev.any (fun c => !(c == '.')) then preRev.reverse else b

/-- The reader `read_m3u_playlist(playlist_path)`, reading the given file lines: each
stripped, non-empty, non-comment line yields one `Track` whose path is the
line joined to the playlist's directory and whose name is the line's
basename without its extension. -/
def read_m3u_playlist (playlist_path : Str) (fileLines : List Str) : List Track :=
  fileLines.foldl
    (fun tracks rawLine =>
      let line := pyStrip rawLine
      if lineValid line then
        tracks ++ [⟨osJoin (pyDirname playlist_path) line,
                    splitextRoot (pyBasename line)⟩]
      else tracks)
    []

theorem foldl_append_if {α β : Type} (p : α → Bool) (g : α → β) :
    ∀ (l : List α) (acc : List β),
      l.foldl (fun acc x => if p x then acc ++ [g x] else acc) acc
        = acc ++ l.filterMap (fun x => if p x then some (g x) else none) := by
  intro l
  induction l with
  | nil => intro acc; simp
  | cons x t ih =>
    intro acc
    cases hx : p x <;>
      simp [List.foldl_cons, List.filterMap_cons, hx, ih]

theorem length_filterMap_if {α β : Type} (p : α → Bool) (g : α → β) :
    ∀ l : List α,
      (l.filterMap (fun x => if p x then some (g x) else none)).length = l.countP p := by
  intro l
  induction l with
  | nil => rfl
  | cons x t ih =>
    cases hx : p x <;> simp [List.filterMap_cons, hx, List.countP_cons, ih]

/-- Claim C3: the Playlist Reader returns exactly one `Track` per valid line
(non-empty after stripping and not starting with `#`), in file order, with
path the line joined to the playlist's directory and name the basename of
the line with its extension removed; a playlist with `N` valid lines yields
exactly `N` entries, and blank or comment lines never produce one. -/
theorem playlist_reader_spec (pp : Str) (fileLines : List Str) :
    read_m3u_playlist pp fileLines
      = fileLines.filterMap (fun rawLine =>
          if lineValid (pyStrip rawLine) then
            some ⟨osJoin (pyDirname pp) (pyStrip rawLine),
                  splitextRoot (pyBasename (pyStrip rawLine))⟩
          else none) ∧
    (read_m3u_playlist pp fileLines).length
      = fileLines.countP (fun rawLine => lineValid (pyStrip rawLine)) ∧
    (∀ rawLine : Str, pyStrip rawLine = [] ∨ startsWithHash (pyStrip rawLine) = true →
      (if lineValid (pyStrip rawLine) then
          some (⟨osJoin (pyDirname pp) (pyStrip rawLine),
                splitextRoot (pyBasename (pyStrip rawLine))⟩ : Track)
        else none) = none) := by
  have hmain : read_m3u_playlist pp fileLines
      = fileLines.filterMap (fun rawLine =>
          if lineValid (pyStrip rawLine) then
            some ⟨osJoin (pyDirname pp) (pyStrip rawLine),
                  splitextRoot (pyBasename (pyStrip rawLine))⟩
          else none) := by
    rw [read_m3u_playlist]
    have h := foldl_append_if (fun rawLine => lineValid (pyStrip rawLine))
      (fun rawLine => Track.mk (osJoin (pyDirname pp) (pyStrip rawLine))
                        (splitextRoot (pyBasename (pyStrip rawLine)))) fileLines []
    simpa using h
  refine ⟨hmain, ?_, ?_⟩
  · rw [hmain]
    exact length_filterMap_if _ _ fileLines
  · intro rawLine h
    have hv : lineValid (pyStrip rawLine) = false := by
      rcases h with h | h
      · simp [lineValid, h]
      · simp [lineValid, h]
    rw [hv]
    simp

/-- Playlist file lines used to witness the reader claim. -/
def wLines : List Str :=
  ["#EXTM3U".data, "intro.mp3".data, "".data, "  main.mp3  ".data, "sub/outro.old.mp3".data]

theorem playlist_reader_spec_witness :
    read_m3u_playlist "music/play.m3u".data wLines
      = wLines.filterMap (fun rawLine =>
          if lineValid (pyStrip rawLine) then
            some ⟨osJoin (pyDirname "music/play.m3u".data) (pyStrip rawLine),
                  splitextRoot (pyBasename (pyStrip rawLine))⟩
          else none) ∧
    (read_m3u_playlist "music/play.m3u".data wLines).length
      = wLines.countP (fun rawLine => lineValid (pyStrip rawLine)) :=
  ⟨(playlist_reader_spec "music/play.m3u".data wLines).1,
   (playlist_reader_spec "music/play.m3u".data wLines).2.1⟩

/-!  Orchestrator (`main` in both scripts).  The filesystem and the two
subprocess invocations are the outside world; they enter as an
environment record.  `os.listdir` on a missing directory raises before
the `try` block, the two `subprocess.run(check=True)` calls may raise
`CalledProcessError` inside it, the two `except` clauses catch every
exception raised inside `try`, and the `finally` block removes
`temp_audio.mp3` when it exists. -/

inductive PyErr where
  | calledProcess (code : Int) : PyErr
  | other (msg : Str) : PyErr
deriving DecidableEq

inductive ExecOutcome where
  | ok : ExecOutcome
  | fails (e : PyErr) : ExecOutcome
deriving DecidableEq

/-- The world a run interacts with: CLI inputs, directory contents, the
playlist file's lines, the outcomes of the two external invocations, and
whether the intermediate file exists before the run and at cleanup time. -/
structure Env where
  inputDir : Str
  dirExists : Bool
  dirListing : List Str
  playlistLines : List Str
  crossfade : Nat
  audioExec : ExecOutcome
  videoExec : ExecOutcome
  tempInitial : Bool
  tempDuring : Bool

/-- Observable outcome of a run: diagnostics printed, which external
commands were invoked, whether the output file was produced, whether the
intermediate `temp_audio.mp3` remains, and an uncaught exception if one
escaped. -/
structure RunResult where
  printed : List Str
  ranAudio : Bool
  ranVideo : Bool
  outputWritten : Bool
  tempExists : Bool
  uncaught : Option PyErr
deriving DecidableEq

def msgNoM3u : Str := "Nie znaleziono pliku M3U w katalogu wejściowym.".data

def msgTooFew : Str :=
  "Potrzebujesz przynajmniej dwóch plików mp3 w playliście, aby utworzyć mix.".data

def msgProcErr : Str := "Wystąpił błąd podczas przetwarzania".data

def msgSuccess : Str := "Waveforma z napisami została wygenerowana pomyślnie.".data

def endsWithM3u (f : Str) : Bool := ".m3u".data.isSuffixOf f

/-- The control flow of `main`: find an `.m3u` file, parse it, require at
least two tracks, run the audio command then the video command inside
`try`, catch `CalledProcessError` and every other exception, and always
run the `finally` cleanup. -/
def mainModel (env : Env) : RunResult :=
  if env.dirExists then
    match env.dirListing.filter endsWithM3u with
    | [] =>
      { printed := [msgNoM3u], ranAudio := false, ranVideo := false,
        outputWritten := false, tempExists := env.tempInitial, uncaught := none }
    | m3u :: _ =>
      let tracks := read_m3u_playlist (osJoin env.inputDir m3u) env.playlistLines
      if tracks.length < 2 then
        { printed := [msgTooFew], ranAudio := false, ranVideo := false,
          outputWritten := false, tempExists := env.tempInitial, uncaught := none }
      else
        let afterTry : RunResult :=
          match env.audioExec with
          | ExecOutcome.fails _ =>
            { printed := [msgProcErr], ranAudio := true, ranVideo := false,
              outputWritten := false, tempExists := env.tempDuring, uncaught := none }
          | ExecOutcome.ok =>
            match env.videoExec with
            | ExecOutcome.fails _ =>
              { printed := [msgProcErr], ranAudio := true, ranVideo := true,
                outputWritten := false, tempExists := env.tempDuring, uncaught := none }
            | ExecOutcome.ok =>
              { printed := [msgSuccess], ranAudio := true, ranVideo := true,
                outputWritten := true, tempExists := env.tempDuring, uncaught := none }
        { afterTry with
          tempExists := if afterTry.tempExists then false else afterTry.tempExists }
  else
    { printed := [], ranAudio := false, ranVideo := false,
      outputWritten := false, tempExists := env.tempInitial,
      uncaught := some (PyErr.other "FileNotFoundError".data) }

/-- Claim C7: a run whose playlist parses to fewer than two tracks prints
the insufficient-tracks diagnostic and returns before invoking either
external command and without producing an output file. -/
theorem insufficient_tracks_aborts (env : Env) (m3u : Str) (rest : List Str)
    (hdir : env.dirExists = true)
    (hm : env.dirListing.filter endsWithM3u = m3u :: rest)
    (hfew : (read_m3u_playlist (osJoin env.inputDir m3u) env.playlistLines).length < 2) :
    mainModel env
      = { printed := [msgTooFew], ranAudio := false, ranVideo := false,
          outputWritten := false, tempExists := env.tempInitial, uncaught := none } := by
  simp only [mainModel, hdir, if_true]
  rw [hm]
  simp [hfew]

/-- Environment of a run whose input directory does not exist. -/
def wEnvMissing : Env :=
  { inputDir := "music".data, dirExists := false, dirListing := [],
    playlistLines := [], crossfade := 5,
    audioExec := ExecOutcome.ok, videoExec := ExecOutcome.ok,
    tempInitial := false, tempDuring := false }

/-- Counterexample to claim C8 as stated: on a missing input directory the
run does not print the missing-playlist diagnostic and terminates with an
uncaught exception — `os.listdir` raises before the guarded region. -/
theorem missing_dir_unhandled :
    (mainModel wEnvMissing).uncaught = some (PyErr.other "FileNotFoundError".data) ∧
    (mainModel wEnvMissing).printed = [] ∧
    ¬ ((mainModel wEnvMissing).printed = [msgNoM3u] ∧
       (mainModel wEnvMissing).uncaught = none) := by decide

/-- Claim C8 (amended): for a directory that exists but holds no `.m3u`
file, the run prints the missing-playlist diagnostic and terminates
gracefully with no command run and no output file; and every error raised
inside the processing stage of a run on an existing directory is caught at
top level — no such run ends with an uncaught exception.  (A missing
directory, by contrast, raises before the guarded region.) -/
theorem missing_playlist_handling (env : Env) (hdir : env.dirExists = true) :
    (env.dirListing.filter endsWithM3u = [] →
      mainModel env
        = { printed := [msgNoM3u], ranAudio := false, ranVideo := false,
            outputWritten := false, tempExists := env.tempInitial, uncaught := none }) ∧
    (mainModel env).uncaught = none := by
  constructor
  · intro hempty
    simp only [mainModel, hdir, if_true]
    rw [hempty]
  · simp only [mainModel, hdir, if_true]
    cases hm : env.dirListing.filter endsWithM3u with
    | nil => rfl
    | cons m3u rest =>
      by_cases hfew :
          (read_m3u_playlist (osJoin env.inputDir m3u) env.playlistLines).length < 2
      · simp [hfew]
      · simp only [hfew, if_false]
        cases env.audioExec with
        | fails e => rfl
        | ok => cases env.videoExec with
          | fails e => rfl
          | ok => rfl

/-- Claim C9: on every exit path of a run that reaches the processing stage
— success, external-tool failure on either command, or any other fault
raised inside the guarded region — the `finally` step removes
`temp_audio.mp3` when it exists, so the intermediate file never persists
after the run. -/
theorem temp_cleanup (env : Env) (m3u : Str) (rest : List Str)
    (hdir : env.dirExists = true)
    (hm : env.dirListing.filter endsWithM3u = m3u :: rest)
    (htracks : 2 ≤ (read_m3u_playlist (osJoin env.inputDir m3u) env.playlistLines).length) :
    (mainModel env).tempExists = false := by
  simp only [mainModel, hdir, if_true]
  rw [hm]
  have hfew : ¬ (read_m3u_playlist (osJoin env.inputDir m3u) env.playlistLines).length < 2 := by
    omega
  simp only [hfew, if_false]
  cases env.audioExec with
  | fails e => cases h : env.tempDuring <;> simp [h]
  | ok => cases env.videoExec with
    | fails e => cases h : env.tempDuring <;> simp [h]
    | ok => cases h : env.tempDuring <;> simp [h]

/-- Environment with a playlist holding a single track. -/
def wEnvFew : Env :=
  { inputDir := "music".data, dirExists := true, dirListing := ["a.m3u".data],
    playlistLines := ["one.mp3".data], crossfade := 5,
    audioExec := ExecOutcome.ok, videoExec := ExecOutcome.ok,
    tempInitial := false, tempDuring := false }

theorem insufficient_tracks_aborts_witness :
    mainModel wEnvFew
      = { printed := [msgTooFew], ranAudio := false, ranVideo := false,
          outputWritten := false, tempExists := wEnvFew.tempInitial, uncaught := none } :=
  insufficient_tracks_aborts wEnvFew "a.m3u".data [] (by decide) (by decide) (by decide)

/-- Environment whose existing input directory holds no playlist file. -/
def wEnvNoM3u : Env :=
  { inputDir := "music".data, dirExists := true, dirListing := ["cover.png".data],
    playlistLines := [], crossfade := 5,
    audioExec := ExecOutcome.ok, videoExec := ExecOutcome.ok,
    tempInitial := false, tempDuring := false }

theorem missing_playlist_handling_witness :
    (wEnvNoM3u.dirListing.filter endsWithM3u = [] →
      mainModel wEnvNoM3u
        = { printed := [msgNoM3u], ranAudio := false, ranVideo := false,
            outputWritten := false, tempExists := wEnvNoM3u.tempInitial, uncaught := none }) ∧
    (mainModel wEnvNoM3u).uncaught = none :=
  missing_playlist_handling wEnvNoM3u (by decide)

/-- Environment of a run that reaches the processing stage and fails in the
audio command with the intermediate file on disk. -/
def wEnvRun : Env :=
  { inputDir := "music".data, dirExists := true, dirListing := ["a.m3u".data],
    playlistLines := ["one.mp3".data, "two.mp3".data], crossfade := 5,
    audioExec := ExecOutcome.fails (PyErr.calledProcess 1), videoExec := ExecOutcome.ok,
    tempInitial := false, tempDuring := true }

theorem temp_cleanup_witness : (mainModel wEnvRun).tempExists = false :=
  temp_cleanup wEnvRun "a.m3u".data [] (by decide) (by decide) (by decide)
